import Mathlib

/-!
# Formal model of the ODBC DSN manager's configuration core

A shallow embedding of the configuration-store engine and connection-test
orchestrator of `odbc-driver-administrator.py`:

* `read_ini_file` (duplicate-tolerant INI parser) as `parseLines` /
  `read_ini_file` over lines modelled as `List Char`;
* the `configparser.write` serialization used by `write_ini_file` as
  `serializeStore`;
* `list_dsns_grouped`, `show_dsn_details`;
* the driver-path misconfiguration check and the backend-dispatch logic of
  `test_dsn_unixodbc` / `test_dsn_iodbc` / `test_dsn`, with the external
  `pyodbc` connector abstracted as a `Str → Bool` oracle.

Printed warnings/notes of the source are modelled structurally
(`ParseWarning`, `TestNote`).
-/

namespace OdbcAdmin

/-- Strings are modelled as lists of characters (Python `str`). -/
abbrev Str := List Char

/-- The ASCII whitespace characters removed by Python `str.strip()`
(non-ASCII whitespace, which the config files do not use, is not modelled). -/
def isPySpace (c : Char) : Bool :=
  c = ' ' || c = '\t' || c = '\n' || c = '\r' || c = '\x0b' || c = '\x0c'

/-- Remove trailing whitespace characters. -/
def dropTrail (s : Str) : Str := (s.reverse.dropWhile isPySpace).reverse

/-- Python `str.strip()`. -/
def pyStrip (s : Str) : Str := dropTrail (s.dropWhile isPySpace)

/-- One `[Name]` block: insertion-ordered key/value pairs (a Python dict). -/
abbrev IniSection := List (Str × Str)

/-- A parsed configuration store: insertion-ordered named sections
(the Python dict built by `read_ini_file`). -/
abbrev Store := List (Str × IniSection)

/-- Python `k in d` for a dict modelled as an association list. -/
def dictHas (d : List (Str × α)) (k : Str) : Bool := d.any (fun kv => kv.1 == k)

/-- Lookup of `d[k]` (first entry with that key; parse output has unique keys). -/
def dictGet? (d : List (Str × α)) (k : Str) : Option α :=
  (d.find? (fun kv => kv.1 == k)).map Prod.snd

/-- Python `d.get(k, dflt)`. -/
def dictGetD (d : List (Str × α)) (k : Str) (dflt : α) : α := (dictGet? d k).getD dflt

/-- Python `d[k] = v`: update in place if the key is present, else append. -/
def dictSet (d : List (Str × α)) (k : Str) (v : α) : List (Str × α) :=
  match d with
  | [] => [(k, v)]
  | kv :: rest => if kv.1 == k then (kv.1, v) :: rest else kv :: dictSet rest k v

/-- The character of one decimal digit, as produced by Python `str`. -/
def digitChar10 : Nat → Char
  | 0 => '0' | 1 => '1' | 2 => '2' | 3 => '3' | 4 => '4'
  | 5 => '5' | 6 => '6' | 7 => '7' | 8 => '8' | _ => '9'

/-- Little-endian decimal digits of `n`, by structural recursion on `fuel`
(any `fuel ≥ n` gives the true digit list, see `toDigitsRev_eq_digits`). -/
def toDigitsRev (fuel : Nat) (n : Nat) : List Nat :=
  match fuel with
  | 0 => []
  | fuel + 1 => if n = 0 then [] else n % 10 :: toDigitsRev fuel (n / 10)

/-- Python `str(n)` for a natural number (decimal, most significant first). -/
def natToStr (n : Nat) : Str :=
  if n = 0 then ['0'] else ((toDigitsRev n n).map digitChar10).reverse

/-- The candidate replacement name `f"{original_name}__{counter}"`. -/
def numbered (orig : Str) (k : Nat) : Str := orig ++ '_' :: '_' :: natToStr k

/-- The duplicate-section `while` loop of `read_ini_file`: try
`orig__counter`, `orig__(counter+1)`, … until a name not in the store is
found.  The loop always terminates in at most `st.length + 1` steps (shown
in `freshName_not_mem`); `fuel` makes the recursion structural. -/
def freshFrom (st : Store) (orig : Str) : Nat → Nat → Str
  | counter, 0 => numbered orig counter
  | counter, fuel + 1 =>
    let cand := numbered orig counter
    if dictHas st cand then freshFrom st orig (counter + 1) fuel else cand

/-- The full duplicate-handling of `read_ini_file` (lines 338–343): keep the
name if unused, otherwise append the first free `__<counter>` suffix. -/
def freshName (st : Store) (orig : Str) : Str :=
  if dictHas st orig then freshFrom st orig 1 (st.length + 1) else orig

/-- Classification of one raw input line, following the branch order of
`read_ini_file`: strip; blank/comment; `[...]` header; line containing `=`;
anything else (silently skipped). -/
inductive LineKind where
  | skip
  | header (name : Str)
  | keyval (k v : Str)
  | other
deriving DecidableEq

/-- The per-line decision structure of `read_ini_file`'s loop body. -/
def classifyLine (raw : Str) : LineKind :=
  let line := pyStrip raw
  if line = [] then .skip
  else if line.head? = some '#' ∨ line.head? = some ';' then .skip
  else if line.head? = some '[' ∧ line.getLast? = some ']' then
    .header (pyStrip ((line.drop 1).dropLast))
  else if '=' ∈ line then
    .keyval (pyStrip (line.takeWhile (fun c => c != '=')))
            (pyStrip ((line.dropWhile (fun c => c != '=')).drop 1))
  else .other

/-- The meta section names skipped by `read_ini_file` (line 334). -/
def reservedNames : List Str := ["ODBC".toList, "ODBC Data Sources".toList]

/-- A warning printed by `read_ini_file`, modelled structurally. -/
inductive ParseWarning where
  | duplicateSection (original renamed : Str)
  | readError (path msg : Str)
deriving DecidableEq

/-- The mutable state of `read_ini_file`'s loop: the store built so far, the
open section (if any), and the warnings reported so far. -/
structure ParseState where
  store : Store
  current : Option Str
  warnings : List ParseWarning
deriving DecidableEq

/-- `dsn_dict[current_section][key] = value` (line 356). -/
def storeSetKV (st : Store) (sec : Str) (k v : Str) : Store :=
  match st with
  | [] => []
  | ns :: rest =>
    if ns.1 == sec then (ns.1, dictSet ns.2 k v) :: rest
    else ns :: storeSetKV rest sec k v

/-- One iteration of `read_ini_file`'s loop (lines 322–356). -/
def processLine (st : ParseState) (raw : Str) : ParseState :=
  match classifyLine raw with
  | .skip => st
  | .other => st
  | .header name =>
    if name ∈ reservedNames then { st with current := none }
    else
      let final := freshName st.store name
      { store := st.store ++ [(final, [])]
        current := some final
        warnings :=
          if final ≠ name then st.warnings ++ [.duplicateSection name final]
          else st.warnings }
  | .keyval k v =>
    match st.current with
    | none => st
    | some sec => { st with store := storeSetKV st.store sec k v }

/-- The whole line loop of `read_ini_file` over the file's lines. -/
def parseLines (lines : List Str) : ParseState :=
  lines.foldl processLine { store := [], current := none, warnings := [] }

/-- The observable state of the file handed to `read_ini_file`: absent (or an
empty path), failing on `open`, readable content, or content whose read fails
partway through. -/
inductive FileInput where
  | absent
  | openFail (msg : Str)
  | content (lines : List Str)
  | contentFail (lines : List Str) (msg : Str)

/-- `read_ini_file` (lines 311–361).  The codomain is `Except` so that a
propagated Python exception would be observable as `.error`; the source's
blanket `except Exception` handler (lines 358–359) prints a warning and
returns the dict built so far, so every path in fact returns `.ok`. -/
def read_ini_file (path : Str) (f : FileInput) : Except Str ParseState :=
  match f with
  | .absent => .ok { store := [], current := none, warnings := [] }
  | .openFail msg =>
      .ok { store := [], current := none, warnings := [.readError path msg] }
  | .content ls => .ok (parseLines ls)
  | .contentFail ls msg =>
      let st := parseLines ls
      .ok { st with warnings := st.warnings ++ [.readError path msg] }

/-- A serialized `key = value` line, as written by `configparser.write` with
`space_around_delimiters=True`. -/
def kvLine (k v : Str) : Str := k ++ ' ' :: '=' :: ' ' :: v

/-- One serialized section: header line, one line per pair, one blank line. -/
def serializeSection (name : Str) (sec : IniSection) : List Str :=
  ('[' :: (name ++ [']'])) :: (sec.map (fun kv => kvLine kv.1 kv.2) ++ [[]])

/-- The serialization performed by `write_ini_file` (via `configparser.write`),
expressed on a parsed store: sections in insertion order. -/
def serializeStore (st : Store) : List Str :=
  (st.map (fun ns => serializeSection ns.1 ns.2)).flatten

/-- ASCII lowercasing (Python `str.lower()` on the ASCII range). -/
def pyLower (s : Str) : Str := s.map Char.toLower

/-- ASCII uppercasing (Python `str.upper()` on the ASCII range). -/
def pyUpper (s : Str) : Str := s.map Char.toUpper

/-- The case-insensitive `Driver` lookup of `list_dsns_grouped` (lines
405–412): first key whose lowercasing is `driver`, its value stripped;
`unknown` when no key matches. -/
def driverOf (sec : IniSection) : Str :=
  match sec.find? (fun kv => pyLower kv.1 == "driver".toList) with
  | some kv => pyStrip kv.2
  | none => "unknown".toList

/-- `defaultdict(list)` append: add `x` to the group of `d`, creating the
group at the end if missing. -/
def groupAdd (g : List (Str × List Str)) (d : Str) (x : Str) : List (Str × List Str) :=
  match g with
  | [] => [(d, [x])]
  | e :: rest => if e.1 == d then (e.1, e.2 ++ [x]) :: rest else e :: groupAdd rest d x

/-- The grouping loop of `list_dsns_grouped` (lines 403–412). -/
def buildGroups (g : List (Str × List Str)) : Store → List (Str × List Str)
  | [] => g
  | ns :: rest => buildGroups (groupAdd g (driverOf ns.2) ns.1) rest

/-- Lexicographic comparison of strings by character code (Python `<`). -/
def strLt : Str → Str → Bool
  | [], [] => false
  | [], _ :: _ => true
  | _ :: _, [] => false
  | a :: as, b :: bs => if a < b then true else if a = b then strLt as bs else false

/-- Non-strict lexicographic comparison. -/
def strLe (a b : Str) : Bool := strLt a b || a == b

/-- Sorted insertion for `sortStrs`. -/
def insertSorted (x : Str) : List Str → List Str
  | [] => [x]
  | y :: ys => if strLe x y then x :: y :: ys else y :: insertSorted x ys

/-- Python `sorted` / `list.sort` on strings (ascending lexicographic). -/
def sortStrs : List Str → List Str
  | [] => []
  | x :: xs => insertSorted x (sortStrs xs)

/-- The DSN listing of `list_dsns_grouped` (lines 402–450): group names by
driver, then walk the driver groups in sorted order, each group's DSN names
sorted. -/
def list_dsns_grouped (store : Store) : List Str :=
  let groups := buildGroups [] store
  ((sortStrs (groups.map Prod.fst)).map (fun d => sortStrs (dictGetD groups d []))).flatten

/-- Modelled from the spec (§4.2 ListDsns): the distinct driver names, sorted
lexicographically; for each, the names of the DSNs resolving to that driver,
sorted lexicographically; concatenated in that order. -/
def specListDsns (store : Store) : List Str :=
  let drivers :=
    store.foldl (fun ks ns => if driverOf ns.2 ∈ ks then ks else ks ++ [driverOf ns.2]) []
  ((sortStrs drivers).map
    (fun d => sortStrs ((store.filter (fun ns => driverOf ns.2 == d)).map Prod.fst))).flatten

/-- The password-masking test of `show_dsn_details` (line 469):
`key.upper() in ['PWD', 'PASSWORD']`. -/
def isPwdKey (k : Str) : Bool :=
  pyUpper k == "PWD".toList || pyUpper k == "PASSWORD".toList

/-- One printed line of `show_dsn_details` (lines 467–472): keys equal to
`PWD`/`PASSWORD` after uppercasing are masked with eight asterisks. -/
def detailLine (k v : Str) : Str :=
  if isPwdKey k then k ++ ' ' :: '=' :: ' ' :: "********".toList
  else k ++ ' ' :: '=' :: ' ' :: v

/-- The detail lines printed by `show_dsn_details` for one DSN section. -/
def show_dsn_details_lines (sec : IniSection) : List Str :=
  sec.map (fun kv => detailLine kv.1 kv.2)

/-- `show_dsn_details`: look the DSN up in the parsed store and print its
masked key/value lines; `none` when the DSN is absent. -/
def show_dsn_details (store : Store) (dsn : Str) : Option (List Str) :=
  (dictGet? store dsn).map show_dsn_details_lines

/-- The two ODBC driver-manager backends. -/
inductive Backend where
  | unixodbc
  | iodbc
deriving DecidableEq, BEq

/-- Python truthiness of an optional string (`if username and password`). -/
def truthy : Option Str → Bool
  | some (_ :: _) => true
  | _ => false

/-- The pyodbc connection string built by the test functions (lines 487–492):
credentials are included only when both username and password are truthy. -/
def mkConnStr (dsn : Str) (u p : Option Str) : Str :=
  if truthy u && truthy p then
    "DSN=".toList ++ dsn ++ ";UID=".toList ++ u.getD [] ++ ";PWD=".toList ++ p.getD []
  else "DSN=".toList ++ dsn

/-- The driver-path misconfiguration check (lines 531–533): the value of the
exact key `Driver` (`dict.get('Driver', '')`), flagged when it contains a
path separator. -/
def detectPathMisconfiguration (sec : IniSection) : Bool :=
  let setting := dictGetD sec "Driver".toList []
  setting.contains '/' || setting.contains '\\'

/-- The scan over the driver store for an entry whose `Driver` value equals
the path stored in the DSN (lines 541–544): first match in store order. -/
def resolveCorrectName (instStore : Store) (pathValue : Str) : Option Str :=
  (instStore.find? (fun dc => dictGet? dc.2 "Driver".toList == some pathValue)).map Prod.fst

/-- A diagnostic printed by the backend test functions, modelled structurally. -/
inductive TestNote where
  | pathMisconfig (dsn setting : Str)
  | foundDriver (name : Str)
  | noMatchingDriver
deriving DecidableEq

/-- The observable outcome of one backend test: the diagnostics printed, the
connection string handed to the connector, the reported success, and the DSN
store as it stands after the call. -/
structure TestOutcome where
  notes : List TestNote
  connStr : Str
  success : Bool
  storeAfter : Store
deriving DecidableEq

/-- The misconfiguration check and connection attempt of `test_dsn_unixodbc`
(lines 479–609).  `dsnStore` / `instStore` are the parsed contents of
`odbc.ini` / `odbcinst.ini` (`instStore = none` when no usable `odbcinst.ini`
exists); `connect` abstracts `pyodbc.connect` plus the probe query.  In the
source, the branch that finds the correct driver name rebuilds `conn_str`
from the same expression it was first built from (lines 549–554); the model
mirrors that re-build.  `storeAfter` is the DSN store after the call: the
source never writes the file in this function. -/
def test_dsn_unixodbc (dsnStore : Store) (instStore : Option Store) (dsn : Str)
    (u p : Option Str) (connect : Str → Bool) : TestOutcome :=
  let cs0 := mkConnStr dsn u p
  let step : List TestNote × Str :=
    match dictGet? dsnStore dsn with
    | none => ([], cs0)
    | some sec =>
      let setting := dictGetD sec "Driver".toList []
      if setting.contains '/' || setting.contains '\\' then
        match instStore with
        | none => ([.pathMisconfig dsn setting], cs0)
        | some ist =>
          match resolveCorrectName ist setting with
          | some correct =>
              ([.pathMisconfig dsn setting, .foundDriver correct], mkConnStr dsn u p)
          | none => ([.pathMisconfig dsn setting, .noMatchingDriver], cs0)
      else ([], cs0)
  { notes := step.1, connStr := step.2, success := connect step.2,
    storeAfter := dsnStore }

/-- The misconfiguration check and connection attempt of `test_dsn_iodbc`
(lines 611–733), whose body duplicates `test_dsn_unixodbc`'s logic. -/
def test_dsn_iodbc (dsnStore : Store) (instStore : Option Store) (dsn : Str)
    (u p : Option Str) (connect : Str → Bool) : TestOutcome :=
  let cs0 := mkConnStr dsn u p
  let step : List TestNote × Str :=
    match dictGet? dsnStore dsn with
    | none => ([], cs0)
    | some sec =>
      let setting := dictGetD sec "Driver".toList []
      if setting.contains '/' || setting.contains '\\' then
        match instStore with
        | none => ([.pathMisconfig dsn setting], cs0)
        | some ist =>
          match resolveCorrectName ist setting with
          | some correct =>
              ([.pathMisconfig dsn setting, .foundDriver correct], mkConnStr dsn u p)
          | none => ([.pathMisconfig dsn setting, .noMatchingDriver], cs0)
      else ([], cs0)
  { notes := step.1, connStr := step.2, success := connect step.2,
    storeAfter := dsnStore }

/-- The backend-dispatch pass of `test_dsn` (lines 824–831): `success` starts
false; unixODBC is attempted first when selected or (with no selection)
available, then iODBC likewise; each attempt ORs its outcome into `success`.
Returns the ordered attempts paired with their outcomes, and the final
`success`. -/
def test_dsn (dsnStore : Store) (instStore : Option Store)
    (manager : Option Backend) (hasUnixodbc hasIodbc : Bool) (dsn : Str)
    (u p : Option Str) (connectUnix connectIodbc : Str → Bool) :
    List (Backend × Bool) × Bool :=
  let success0 := false
  let attemptUnix : Bool :=
    manager == some Backend.unixodbc || (manager == none && hasUnixodbc)
  let attemptIodbc : Bool :=
    manager == some Backend.iodbc || (manager == none && hasIodbc)
  let outU := (test_dsn_unixodbc dsnStore instStore dsn u p connectUnix).success
  let outI := (test_dsn_iodbc dsnStore instStore dsn u p connectIodbc).success
  let resultsU : List (Backend × Bool) := if attemptUnix then [(Backend.unixodbc, outU)] else []
  let success1 := if attemptUnix then outU || success0 else success0
  let resultsI : List (Backend × Bool) := if attemptIodbc then [(Backend.iodbc, outI)] else []
  let success2 := if attemptIodbc then outI || success1 else success1
  (resultsU ++ resultsI, success2)

/-- Shape invariant of keys/values stored by the parser: both sides are
stripped, the key contains no `=` and starts with no comment marker, and the
pair cannot re-serialize into a line that looks like a section header. -/
def goodKV (k v : Str) : Prop :=
  pyStrip k = k ∧ pyStrip v = v ∧ '=' ∉ k ∧ k.head? ≠ some '#' ∧ k.head? ≠ some ';' ∧
  ¬(k.head? = some '[' ∧ v.getLast? = some ']')

/-- Shape invariant of section names stored by the parser. -/
def goodName (n : Str) : Prop := pyStrip n = n ∧ n ∉ reservedNames

/-- Invariant of one parsed section: unique keys, all pairs well-shaped. -/
def GoodSection (sec : IniSection) : Prop :=
  (sec.map Prod.fst).Nodup ∧ ∀ kv ∈ sec, goodKV kv.1 kv.2

/-- Invariant of a parsed store: unique, well-shaped section names, each
section satisfying `GoodSection`. -/
def GoodStore (st : Store) : Prop :=
  (st.map Prod.fst).Nodup ∧ ∀ ns ∈ st, goodName ns.1 ∧ GoodSection ns.2

/-- The effect of a run of key/value lines on one section dict: fold the
`key=value` updates of `read_ini_file` over the lines. -/
def kvFold (s : IniSection) (ls : List Str) : IniSection :=
  ls.foldl (fun acc l =>
    match classifyLine l with
    | .keyval k v => dictSet acc k v
    | _ => acc) s

/-- The section left open after replaying a store's serialization. -/
def lastCur (cur : Option Str) : Store → Option Str
  | [] => cur
  | ns :: rest => lastCur (some ns.1) rest

/-! ## Stripping: basic lemmas -/

theorem dropWhile_append_of_all {p : Char → Bool} {l r : Str}
    (h : ∀ a ∈ l, p a = true) : (l ++ r).dropWhile p = r.dropWhile p := by
  induction l with
  | nil => rfl
  | cons a t ih =>
    rw [List.cons_append, List.dropWhile_cons, if_pos (h a (List.mem_cons_self a t))]
    exact ih fun b hb => h b (List.mem_cons_of_mem a hb)

theorem takeWhile_append_of_all {p : Char → Bool} {l r : Str}
    (h : ∀ a ∈ l, p a = true) : (l ++ r).takeWhile p = l ++ r.takeWhile p := by
  induction l with
  | nil => rfl
  | cons a t ih =>
    rw [List.cons_append, List.takeWhile_cons, if_pos (h a (List.mem_cons_self a t)),
      ih fun b hb => h b (List.mem_cons_of_mem a hb), List.cons_append]

theorem head?_dropWhile_false {p : Char → Bool} {l : Str} {c : Char}
    (h : (l.dropWhile p).head? = some c) : p c = false := by
  induction l with
  | nil => simp [List.dropWhile] at h
  | cons a t ih =>
    rw [List.dropWhile_cons] at h
    by_cases hp : p a = true
    · exact ih (by rwa [if_pos hp] at h)
    · rw [if_neg hp] at h
      simp only [List.head?_cons, Option.some.injEq] at h
      subst h
      exact Bool.not_eq_true _ ▸ hp

theorem dropWhile_eq_self_of_head {p : Char → Bool} {l : Str}
    (h : ∀ c, l.head? = some c → p c = false) : l.dropWhile p = l := by
  cases l with
  | nil => rfl
  | cons a t => rw [List.dropWhile_cons, if_neg (by simp [h a rfl])]

theorem dropTrail_eq_self_of_getLast {l : Str}
    (h : ∀ c, l.getLast? = some c → isPySpace c = false) : dropTrail l = l := by
  unfold dropTrail
  rw [dropWhile_eq_self_of_head, List.reverse_reverse]
  intro c hc
  exact h c (by rwa [List.head?_reverse] at hc)

theorem pyStrip_eq_self_of {l : Str}
    (h1 : ∀ c, l.head? = some c → isPySpace c = false)
    (h2 : ∀ c, l.getLast? = some c → isPySpace c = false) : pyStrip l = l := by
  unfold pyStrip
  rw [dropWhile_eq_self_of_head h1, dropTrail_eq_self_of_getLast h2]

theorem dropTrail_pref (l : Str) : dropTrail l <+: l := by
  have h := List.dropWhile_suffix (l := l.reverse) isPySpace
  have h2 : (l.reverse.dropWhile isPySpace).reverse.reverse <:+ l.reverse := by
    rwa [List.reverse_reverse]
  exact (List.reverse_suffix).mp h2

theorem pref_head?_eq {l₁ l₂ : Str} (h : l₁ <+: l₂) {c : Char}
    (hc : l₁.head? = some c) : l₂.head? = some c := by
  obtain ⟨t, rfl⟩ := h
  cases l₁ with
  | nil => simp at hc
  | cons a r => simpa using hc

theorem suf_getLast?_eq {l₁ l₂ : Str} (h : l₁ <:+ l₂) {c : Char}
    (hc : l₁.getLast? = some c) : l₂.getLast? = some c := by
  obtain ⟨t, rfl⟩ := h
  rw [List.getLast?_append_of_ne_nil]
  · exact hc
  · rintro rfl; simp at hc

theorem pyStrip_head?_false {l : Str} {c : Char}
    (h : (pyStrip l).head? = some c) : isPySpace c = false := by
  unfold pyStrip at h
  exact head?_dropWhile_false (pref_head?_eq (dropTrail_pref _) h)

theorem getLast?_reverse' (l : Str) : l.reverse.getLast? = l.head? := by
  have h := List.head?_reverse l.reverse
  rw [List.reverse_reverse] at h
  exact h.symm

theorem pyStrip_getLast?_false {l : Str} {c : Char}
    (h : (pyStrip l).getLast? = some c) : isPySpace c = false := by
  unfold pyStrip dropTrail at h
  rw [getLast?_reverse'] at h
  exact head?_dropWhile_false h

theorem pyStrip_idem (l : Str) : pyStrip (pyStrip l) = pyStrip l :=
  pyStrip_eq_self_of (fun _ hc => pyStrip_head?_false hc)
    (fun _ hc => pyStrip_getLast?_false hc)

theorem mem_of_mem_pyStrip {c : Char} {l : Str} (h : c ∈ pyStrip l) : c ∈ l := by
  unfold pyStrip dropTrail at h
  rw [List.mem_reverse] at h
  have h1 := (List.dropWhile_sublist isPySpace).subset h
  rw [List.mem_reverse] at h1
  exact (List.dropWhile_sublist isPySpace).subset h1

theorem stripped_head_false {l : Str} {c : Char} (hs : pyStrip l = l)
    (hc : l.head? = some c) : isPySpace c = false :=
  pyStrip_head?_false (l := l) (by rw [hs]; exact hc)

theorem stripped_getLast_false {l : Str} {c : Char} (hs : pyStrip l = l)
    (hc : l.getLast? = some c) : isPySpace c = false :=
  pyStrip_getLast?_false (l := l) (by rw [hs]; exact hc)

/-! ## Stripping the serialized line shapes -/

theorem dropTrail_append_space (x : Str) : dropTrail (x ++ [' ']) = dropTrail x := by
  unfold dropTrail
  rw [List.reverse_append]
  rfl

theorem dropTrail_eq_of_strip {k : Str} (hk : pyStrip k = k) : dropTrail k = k := by
  cases k with
  | nil => rfl
  | cons a t =>
    apply dropTrail_eq_self_of_getLast
    intro c hc
    exact stripped_getLast_false hk hc

theorem dropWhile_eq_of_strip {k : Str} (hk : pyStrip k = k) :
    k.dropWhile isPySpace = k := by
  apply dropWhile_eq_self_of_head
  intro c hc
  exact stripped_head_false hk hc

theorem pyStrip_append_space {k : Str} (hk : pyStrip k = k) : pyStrip (k ++ [' ']) = k := by
  cases k with
  | nil => decide
  | cons a t =>
    unfold pyStrip
    rw [dropWhile_eq_self_of_head ?hd, dropTrail_append_space,
      dropTrail_eq_of_strip hk]
    case hd =>
      intro c hc
      rw [List.cons_append, List.head?_cons, Option.some.injEq] at hc
      rw [← hc]
      exact stripped_head_false hk rfl

theorem pyStrip_space_cons {v : Str} (hv : pyStrip v = v) : pyStrip (' ' :: v) = v := by
  unfold pyStrip
  rw [List.dropWhile_cons, if_pos (by decide)]
  exact hv

theorem pyStrip_kvLine_both {k v : Str} (hk : pyStrip k = k) (hv : pyStrip v = v)
    (hk0 : k ≠ []) (hv0 : v ≠ []) : pyStrip (kvLine k v) = kvLine k v := by
  apply pyStrip_eq_self_of
  · intro c hc
    cases k with
    | nil => exact absurd rfl hk0
    | cons a t =>
      simp only [kvLine, List.cons_append, List.head?_cons, Option.some.injEq] at hc
      rw [← hc]
      exact stripped_head_false hk rfl
  · intro c hc
    have he : (kvLine k v).getLast? = v.getLast? := by
      unfold kvLine
      rw [show k ++ ' ' :: '=' :: ' ' :: v = (k ++ [' ', '=', ' ']) ++ v by simp]
      exact List.getLast?_append_of_ne_nil _ hv0
    rw [he] at hc
    exact stripped_getLast_false hv hc

theorem pyStrip_kvLine_kv_nil {k : Str} (hk : pyStrip k = k) (hk0 : k ≠ []) :
    pyStrip (kvLine k []) = k ++ [' ', '='] := by
  unfold pyStrip kvLine
  rw [dropWhile_eq_self_of_head ?hd]
  case hd =>
    intro c hc
    cases k with
    | nil => exact absurd rfl hk0
    | cons a t =>
      rw [List.cons_append, List.head?_cons, Option.some.injEq] at hc
      rw [← hc]
      exact stripped_head_false hk rfl
  rw [show k ++ ' ' :: '=' :: ' ' :: ([] : Str) = (k ++ [' ', '=']) ++ [' '] by simp,
    dropTrail_append_space]
  apply dropTrail_eq_self_of_getLast
  intro c hc
  rw [show k ++ [' ', '='] = (k ++ [' ']) ++ ['='] by simp, List.getLast?_concat,
    Option.some.injEq] at hc
  rw [← hc]
  decide

theorem pyStrip_kvLine_nil_v {v : Str} (hv : pyStrip v = v) (hv0 : v ≠ []) :
    pyStrip (kvLine [] v) = '=' :: ' ' :: v := by
  unfold pyStrip kvLine
  rw [List.nil_append, List.dropWhile_cons, if_pos (by decide), List.dropWhile_cons,
    if_neg (by decide)]
  apply dropTrail_eq_self_of_getLast
  intro c hc
  rw [show ('=' :: ' ' :: v) = ['=', ' '] ++ v by rfl,
    List.getLast?_append_of_ne_nil _ hv0] at hc
  exact stripped_getLast_false hv hc

theorem pyStrip_kvLine_nil_nil : pyStrip (kvLine [] []) = ['='] := by decide

/-! ## Evaluating `classifyLine` on the serialized shapes -/

theorem classify_eval_keyval {raw L : Str} (hL : pyStrip raw = L)
    (h0 : ¬(L = []))
    (h1 : ¬(L.head? = some '#' ∨ L.head? = some ';'))
    (h2 : ¬(L.head? = some '[' ∧ L.getLast? = some ']'))
    (h3 : '=' ∈ L) :
    classifyLine raw = .keyval (pyStrip (L.takeWhile (fun c => c != '=')))
      (pyStrip ((L.dropWhile (fun c => c != '=')).drop 1)) := by
  unfold classifyLine
  simp only [hL]
  rw [if_neg h0, if_neg h1, if_neg h2, if_pos h3]

theorem classifyLine_header {n : Str} (hn : pyStrip n = n) :
    classifyLine ('[' :: (n ++ [']'])) = .header n := by
  have hL : pyStrip ('[' :: (n ++ [']'])) = '[' :: (n ++ [']']) := by
    apply pyStrip_eq_self_of
    · intro c hc
      rw [List.head?_cons, Option.some.injEq] at hc
      rw [← hc]
      decide
    · intro c hc
      rw [show ('[' :: (n ++ [']'])) = ('[' :: n) ++ [']'] by simp,
        List.getLast?_concat, Option.some.injEq] at hc
      rw [← hc]
      decide
  unfold classifyLine
  simp only [hL]
  rw [if_neg (by simp), if_neg ?hcm, if_pos ?hdr]
  case hcm =>
    rintro (h | h) <;> simp at h
  case hdr =>
    refine ⟨rfl, ?_⟩
    rw [show ('[' :: (n ++ [']'])) = ('[' :: n) ++ [']'] by simp, List.getLast?_concat]
  rw [List.drop_one, List.tail_cons, List.dropLast_concat, hn]

theorem takeWhile_pair (v' : Str) :
    (' ' :: '=' :: v').takeWhile (fun c => c != '=') = [' '] := by
  rw [List.takeWhile_cons, if_pos (by decide), List.takeWhile_cons, if_neg (by decide)]

theorem dropWhile_pair (v' : Str) :
    (' ' :: '=' :: v').dropWhile (fun c => c != '=') = '=' :: v' := by
  rw [List.dropWhile_cons, if_pos (by decide), List.dropWhile_cons, if_neg (by decide)]

theorem classifyLine_kvLine {k v : Str} (hk : pyStrip k = k) (hv : pyStrip v = v)
    (hne : '=' ∉ k) (hh : k.head? ≠ some '#') (hsc : k.head? ≠ some ';')
    (hbr : ¬(k.head? = some '[' ∧ v.getLast? = some ']')) :
    classifyLine (kvLine k v) = .keyval k v := by
  have hall : ∀ a ∈ k, (a != '=') = true := by
    intro a ha
    rw [bne_iff_ne]
    rintro rfl
    exact hne ha
  cases k with
  | nil =>
    cases v with
    | nil => decide
    | cons b vt =>
      rw [classify_eval_keyval (pyStrip_kvLine_nil_v hv (by simp))
        (by simp) ?h1 ?h2 (by simp)]
      case h1 => rintro (h | h) <;> simp at h
      case h2 =>
        rintro ⟨h, -⟩
        simp at h
      rw [List.takeWhile_cons, if_neg (by decide), List.dropWhile_cons,
        if_neg (by decide), List.drop_one, List.tail_cons]
      rw [pyStrip_space_cons hv]
      rfl
  | cons a kt =>
    have hka : isPySpace a = false := stripped_head_false hk rfl
    cases v with
    | nil =>
      rw [classify_eval_keyval (pyStrip_kvLine_kv_nil hk (by simp))
        ?h0 ?h1 ?h2 (by simp)]
      case h0 => simp
      case h1 =>
        rw [show ((a :: kt) ++ [' ', '=']).head? = some a by simp]
        rintro (h | h)
        exacts [hh h, hsc h]
      case h2 =>
        rintro ⟨-, h⟩
        rw [show (a :: kt) ++ [' ', '='] = ((a :: kt) ++ [' ']) ++ ['='] by simp,
          List.getLast?_concat, Option.some.injEq] at h
        exact absurd h (by decide)
      rw [show (a :: kt) ++ [' ', '='] = (a :: kt) ++ ' ' :: '=' :: [] by rfl,
        takeWhile_append_of_all hall, dropWhile_append_of_all hall,
        takeWhile_pair, dropWhile_pair, List.drop_one, List.tail_cons]
      rw [pyStrip_append_space hk]
      rfl
    | cons b vt =>
      rw [classify_eval_keyval (pyStrip_kvLine_both hk hv (by simp) (by simp))
        ?h0 ?h1 ?h2 ?h3]
      case h0 => simp [kvLine]
      case h1 =>
        rw [show (kvLine (a :: kt) (b :: vt)).head? = some a by simp [kvLine]]
        rintro (h | h)
        exacts [hh h, hsc h]
      case h2 =>
        rw [show (kvLine (a :: kt) (b :: vt)).head? = some a by simp [kvLine],
          show (kvLine (a :: kt) (b :: vt)).getLast? = (b :: vt).getLast? by
            rw [show kvLine (a :: kt) (b :: vt)
                = ((a :: kt) ++ [' ', '=', ' ']) ++ (b :: vt) by simp [kvLine]]
            exact List.getLast?_append_of_ne_nil _ (by simp)]
        exact hbr
      case h3 => simp [kvLine]
      rw [show kvLine (a :: kt) (b :: vt) = (a :: kt) ++ ' ' :: '=' :: ' ' :: (b :: vt)
          by rfl,
        takeWhile_append_of_all hall, dropWhile_append_of_all hall,
        takeWhile_pair, dropWhile_pair, List.drop_one, List.tail_cons]
      rw [pyStrip_append_space hk, pyStrip_space_cons hv]

/-! ## Inverting `classifyLine`: shape facts about parsed keys and values -/

theorem pyStrip_pref_head {L T : Str} (hL : pyStrip L = L) (hT : T <+: L)
    (hne : pyStrip T ≠ []) : (pyStrip T).head? = L.head? := by
  have hT0 : T ≠ [] := by
    rintro rfl
    exact hne rfl
  obtain ⟨a, t, rfl⟩ : ∃ a t, T = a :: t := by
    cases T with
    | nil => exact absurd rfl hT0
    | cons a t => exact ⟨a, t, rfl⟩
  have hha : L.head? = some a := pref_head?_eq hT rfl
  have hsa : isPySpace a = false := stripped_head_false hL hha
  have hdw : (a :: t).dropWhile isPySpace = a :: t := by
    apply dropWhile_eq_self_of_head
    intro c hc
    rw [List.head?_cons, Option.some.injEq] at hc
    rw [← hc]
    exact hsa
  have hps : pyStrip (a :: t) = dropTrail (a :: t) := by
    unfold pyStrip
    rw [hdw]
  obtain ⟨b, hb⟩ : ∃ b, (pyStrip (a :: t)).head? = some b := by
    cases hh : (pyStrip (a :: t)).head? with
    | none => exact absurd (List.head?_eq_none_iff.mp hh) hne
    | some b => exact ⟨b, rfl⟩
  have hbt : (a :: t).head? = some b := by
    apply pref_head?_eq _ hb
    rw [hps]
    exact dropTrail_pref (a :: t)
  rw [hb, hha]
  rw [List.head?_cons, Option.some.injEq] at hbt
  rw [hbt]

theorem pyStrip_suf_getLast {L D : Str} (hL : pyStrip L = L) (hD : D <:+ L)
    (hne : pyStrip D ≠ []) : (pyStrip D).getLast? = L.getLast? := by
  have hE : pyStrip D = dropTrail (D.dropWhile isPySpace) := rfl
  have hEsuf : D.dropWhile isPySpace <:+ L :=
    (List.dropWhile_suffix isPySpace).trans hD
  have hE0 : D.dropWhile isPySpace ≠ [] := by
    rintro hc
    rw [hE, hc] at hne
    exact hne rfl
  obtain ⟨e, he⟩ : ∃ e, (D.dropWhile isPySpace).getLast? = some e := by
    cases hh : (D.dropWhile isPySpace).getLast? with
    | none => exact absurd (List.getLast?_eq_none_iff.mp hh) hE0
    | some e => exact ⟨e, rfl⟩
  have hLe : L.getLast? = some e := suf_getLast?_eq hEsuf he
  have hse : isPySpace e = false := stripped_getLast_false hL hLe
  have hdt : dropTrail (D.dropWhile isPySpace) = D.dropWhile isPySpace := by
    apply dropTrail_eq_self_of_getLast
    intro c hc
    rw [he, Option.some.injEq] at hc
    rw [← hc]
    exact hse
  rw [hE, hdt, he, hLe]

theorem classifyLine_keyval_inv {raw k v : Str} (h : classifyLine raw = .keyval k v) :
    pyStrip raw ≠ [] ∧
    ¬((pyStrip raw).head? = some '#' ∨ (pyStrip raw).head? = some ';') ∧
    ¬((pyStrip raw).head? = some '[' ∧ (pyStrip raw).getLast? = some ']') ∧
    '=' ∈ pyStrip raw ∧
    k = pyStrip ((pyStrip raw).takeWhile (fun c => c != '=')) ∧
    v = pyStrip (((pyStrip raw).dropWhile (fun c => c != '=')).drop 1) := by
  unfold classifyLine at h
  dsimp only at h
  split at h
  · exact absurd h (by simp)
  · split at h
    · exact absurd h (by simp)
    · split at h
      · exact absurd h (by simp)
      · split at h
        · rename_i h0 h1 h2 h3
          injection h with hk hv
          exact ⟨h0, h1, h2, h3, hk.symm, hv.symm⟩
        · exact absurd h (by simp)

theorem classifyLine_header_inv {raw n : Str} (h : classifyLine raw = .header n) :
    n = pyStrip (((pyStrip raw).drop 1).dropLast) := by
  unfold classifyLine at h
  dsimp only at h
  split at h
  · exact absurd h (by simp)
  · split at h
    · exact absurd h (by simp)
    · split at h
      · injection h with hn
        exact hn.symm
      · split at h
        · exact absurd h (by simp)
        · exact absurd h (by simp)

theorem header_stripped_of_classify {raw n : Str} (h : classifyLine raw = .header n) :
    pyStrip n = n := by
  rw [classifyLine_header_inv h]
  exact pyStrip_idem _

theorem goodKV_of_classify {raw k v : Str} (h : classifyLine raw = .keyval k v) :
    goodKV k v := by
  obtain ⟨hne, hcm, hhd, hmem, hk, hv⟩ := classifyLine_keyval_inv h
  have hsk : pyStrip k = k := by rw [hk]; exact pyStrip_idem _
  have hsv : pyStrip v = v := by rw [hv]; exact pyStrip_idem _
  have hLs : pyStrip (pyStrip raw) = pyStrip raw := pyStrip_idem raw
  have hkhead : k ≠ [] → k.head? = (pyStrip raw).head? := by
    intro hk0
    rw [hk]
    apply pyStrip_pref_head hLs (List.takeWhile_prefix _)
    rw [← hk]
    exact hk0
  have hvlast : v ≠ [] → v.getLast? = (pyStrip raw).getLast? := by
    intro hv0
    rw [hv]
    apply pyStrip_suf_getLast hLs
    · exact (List.drop_suffix _ _).trans (List.dropWhile_suffix _)
    · rw [← hv]
      exact hv0
  refine ⟨hsk, hsv, ?_, ?_, ?_, ?_⟩
  · intro hm
    rw [hk] at hm
    have h1 := mem_of_mem_pyStrip hm
    have h2 := List.mem_takeWhile_imp h1
    simp at h2
  · intro hc
    have hk0 : k ≠ [] := by
      rintro rfl
      simp at hc
    rw [hkhead hk0] at hc
    exact hcm (Or.inl hc)
  · intro hc
    have hk0 : k ≠ [] := by
      rintro rfl
      simp at hc
    rw [hkhead hk0] at hc
    exact hcm (Or.inr hc)
  · rintro ⟨hc1, hc2⟩
    have hk0 : k ≠ [] := by
      rintro rfl
      simp at hc1
    have hv0 : v ≠ [] := by
      rintro rfl
      simp at hc2
    rw [hkhead hk0] at hc1
    rw [hvlast hv0] at hc2
    exact hhd ⟨hc1, hc2⟩

/-! ## Decimal counters and the rename loop -/

theorem digitChar10_inj_lt :
    ∀ a, a < 10 → ∀ b, b < 10 → digitChar10 a = digitChar10 b → a = b := by decide

theorem digitChar10_not_space : ∀ d : Nat, isPySpace (digitChar10 d) = false
  | 0 | 1 | 2 | 3 | 4 | 5 | 6 | 7 | 8 => by decide
  | _ + 9 => by rfl

theorem toDigitsRev_eq_digits : ∀ (fuel n : Nat), n ≤ fuel →
    toDigitsRev fuel n = Nat.digits 10 n := by
  intro fuel
  induction fuel with
  | zero =>
    intro n hn
    have h0 : n = 0 := Nat.le_zero.mp hn
    rw [h0, Nat.digits_zero]
    rfl
  | succ fuel ih =>
    intro n hn
    unfold toDigitsRev
    by_cases h0 : n = 0
    · rw [if_pos h0, h0, Nat.digits_zero]
    · have hdiv : n / 10 ≤ fuel := by
        have := Nat.div_lt_self (Nat.pos_of_ne_zero h0) (by norm_num : 1 < 10)
        omega
      rw [if_neg h0,
        Nat.digits_def' (by norm_num : (1 : Nat) < 10) (Nat.pos_of_ne_zero h0),
        ih (n / 10) hdiv]

theorem natToStr_eq (n : Nat) :
    natToStr n = if n = 0 then ['0'] else ((Nat.digits 10 n).map digitChar10).reverse := by
  unfold natToStr
  by_cases h0 : n = 0
  · rw [if_pos h0, if_pos h0]
  · rw [if_neg h0, if_neg h0, toDigitsRev_eq_digits n n (Nat.le_refl n)]

theorem natToStr_ne_nil (n : Nat) : natToStr n ≠ [] := by
  rw [natToStr_eq]
  split
  · simp
  · rename_i h
    simp [Nat.digits_ne_nil_iff_ne_zero, h]

theorem natToStr_getLast_not_space {n : Nat} {c : Char}
    (h : (natToStr n).getLast? = some c) : isPySpace c = false := by
  rw [natToStr_eq] at h
  split at h
  · rw [show (['0'] : Str).getLast? = some '0' from rfl, Option.some.injEq] at h
    rw [← h]
    decide
  · rw [getLast?_reverse', List.head?_map] at h
    cases hd : (Nat.digits 10 n).head? with
    | none => rw [hd] at h; simp at h
    | some d =>
      rw [hd] at h
      simp at h
      rw [← h]
      exact digitChar10_not_space d

theorem map_digitChar10_inj : ∀ {l1 l2 : List Nat}, (∀ d ∈ l1, d < 10) →
    (∀ d ∈ l2, d < 10) → l1.map digitChar10 = l2.map digitChar10 → l1 = l2 := by
  intro l1
  induction l1 with
  | nil =>
    intro l2 _ _ h
    cases l2 with
    | nil => rfl
    | cons b t => simp at h
  | cons a t ih =>
    intro l2 h1 h2 h
    cases l2 with
    | nil => simp at h
    | cons b u =>
      simp only [List.map_cons, List.cons.injEq] at h
      have ha : a = b := digitChar10_inj_lt a (h1 a (by simp)) b (h2 b (by simp)) h.1
      rw [ha, ih (fun d hd => h1 d (by simp [hd])) (fun d hd => h2 d (by simp [hd])) h.2]

theorem digits_map_ne_zero_str {n : Nat} (hn : n ≠ 0) :
    (Nat.digits 10 n).map digitChar10 ≠ ['0'] := by
  intro h
  cases hds : Nat.digits 10 n with
  | nil => rw [hds] at h; simp at h
  | cons d t =>
    rw [hds] at h
    simp only [List.map_cons, List.cons.injEq, List.map_eq_nil_iff] at h
    have hd10 : d < 10 :=
      Nat.digits_lt_base (by norm_num) (by rw [hds]; exact List.mem_cons_self d t)
    have hd0 : d = 0 :=
      digitChar10_inj_lt d hd10 0 (by norm_num) (by rw [h.1]; rfl)
    have h3 : Nat.digits 10 n = [0] := by rw [hds, h.2, hd0]
    have h4 := Nat.ofDigits_digits 10 n
    rw [h3] at h4
    simp [Nat.ofDigits] at h4
    exact hn h4.symm

theorem natToStr_inj {m n : Nat} (h : natToStr m = natToStr n) : m = n := by
  rw [natToStr_eq, natToStr_eq] at h
  by_cases hm : m = 0 <;> by_cases hn : n = 0
  · rw [hm, hn]
  · exfalso
    rw [if_pos hm, if_neg hn] at h
    have h' : (Nat.digits 10 n).map digitChar10 = ['0'] := by
      have h2 := congrArg List.reverse h
      rw [List.reverse_reverse] at h2
      exact h2.symm
    exact digits_map_ne_zero_str hn h'
  · exfalso
    rw [if_neg hm, if_pos hn] at h
    have h' : (Nat.digits 10 m).map digitChar10 = ['0'] := by
      have h2 := congrArg List.reverse h
      rw [List.reverse_reverse] at h2
      exact h2
    exact digits_map_ne_zero_str hm h'
  · rw [if_neg hm, if_neg hn] at h
    have h' := congrArg List.reverse h
    rw [List.reverse_reverse, List.reverse_reverse] at h'
    have hd := map_digitChar10_inj
      (fun d hd => Nat.digits_lt_base (by norm_num) hd)
      (fun d hd => Nat.digits_lt_base (by norm_num) hd) h'
    calc m = Nat.ofDigits 10 (Nat.digits 10 m) := (Nat.ofDigits_digits 10 m).symm
    _ = Nat.ofDigits 10 (Nat.digits 10 n) := by rw [hd]
    _ = n := Nat.ofDigits_digits 10 n

theorem numbered_inj {orig : Str} {m n : Nat} (h : numbered orig m = numbered orig n) :
    m = n := by
  unfold numbered at h
  have h1 := List.append_cancel_left h
  injection h1 with _ h2
  injection h2 with _ h3
  exact natToStr_inj h3

theorem numbered_ne_orig (orig : Str) (k : Nat) : numbered orig k ≠ orig := by
  intro h
  have hl := congrArg List.length h
  simp [numbered] at hl

theorem numbered_not_reserved (orig : Str) (k : Nat) :
    numbered orig k ∉ reservedNames := by
  intro h
  have hm : '_' ∈ numbered orig k := by simp [numbered]
  simp only [reservedNames, List.mem_cons, List.not_mem_nil, or_false] at h
  rcases h with h | h
  · rw [h] at hm
    exact absurd hm (by decide)
  · rw [h] at hm
    exact absurd hm (by decide)

theorem numbered_stripped {orig : Str} (h : pyStrip orig = orig) (k : Nat) :
    pyStrip (numbered orig k) = numbered orig k := by
  apply pyStrip_eq_self_of
  · intro c hc
    cases orig with
    | nil =>
      rw [show numbered [] k = '_' :: '_' :: natToStr k from rfl, List.head?_cons,
        Option.some.injEq] at hc
      rw [← hc]
      decide
    | cons a t =>
      rw [show numbered (a :: t) k = a :: (t ++ '_' :: '_' :: natToStr k) from rfl,
        List.head?_cons, Option.some.injEq] at hc
      rw [← hc]
      exact stripped_head_false h rfl
  · intro c hc
    have he : (numbered orig k).getLast? = (natToStr k).getLast? := by
      unfold numbered
      rw [show orig ++ '_' :: '_' :: natToStr k = (orig ++ ['_', '_']) ++ natToStr k
        by simp]
      exact List.getLast?_append_of_ne_nil _ (natToStr_ne_nil k)
    rw [he] at hc
    exact natToStr_getLast_not_space hc

theorem dictHas_iff {α : Type} {d : List (Str × α)} {k : Str} :
    dictHas d k = true ↔ k ∈ d.map Prod.fst := by
  unfold dictHas
  rw [List.any_eq_true]
  constructor
  · rintro ⟨kv, hkv, he⟩
    rw [beq_iff_eq] at he
    rw [← he]
    exact List.mem_map_of_mem Prod.fst hkv
  · intro hm
    obtain ⟨kv, hkv, hfst⟩ := List.mem_map.mp hm
    exact ⟨kv, hkv, beq_iff_eq.mpr hfst⟩

theorem freshFrom_spec (st : Store) (orig : Str) :
    ∀ fuel counter, dictHas st (freshFrom st orig counter fuel) = true →
      ∀ j, counter ≤ j → j ≤ counter + fuel → dictHas st (numbered orig j) = true := by
  intro fuel
  induction fuel with
  | zero =>
    intro counter h j h1 h2
    have hj : j = counter := Nat.le_antisymm (by simpa using h2) h1
    rw [hj]
    simpa [freshFrom] using h
  | succ fuel ih =>
    intro counter h j h1 h2
    unfold freshFrom at h
    dsimp only at h
    by_cases hc : dictHas st (numbered orig counter) = true
    · rw [if_pos hc] at h
      rcases Nat.eq_or_lt_of_le h1 with rfl | hlt
      · exact hc
      · exact ih (counter + 1) h j hlt (by omega)
    · rw [if_neg hc] at h
      exact absurd h hc

theorem freshFrom_numbered (st : Store) (orig : Str) :
    ∀ fuel counter, ∃ j, counter ≤ j ∧ freshFrom st orig counter fuel = numbered orig j := by
  intro fuel
  induction fuel with
  | zero => exact fun counter => ⟨counter, Nat.le_refl _, rfl⟩
  | succ fuel ih =>
    intro counter
    unfold freshFrom
    dsimp only
    by_cases hc : dictHas st (numbered orig counter) = true
    · rw [if_pos hc]
      obtain ⟨j, hj1, hj2⟩ := ih (counter + 1)
      exact ⟨j, by omega, hj2⟩
    · rw [if_neg hc]
      exact ⟨counter, Nat.le_refl _, rfl⟩

theorem freshName_not_has (st : Store) (orig : Str) :
    dictHas st (freshName st orig) = false := by
  unfold freshName
  by_cases h0 : dictHas st orig = true
  · rw [if_pos h0]
    by_contra hcon
    rw [Bool.not_eq_false] at hcon
    have hall := freshFrom_spec st orig (st.length + 1) 1 hcon
    have hnodup :
        (orig :: (List.range (st.length + 2)).map (fun i => numbered orig (1 + i))).Nodup := by
      rw [List.nodup_cons]
      constructor
      · intro hmem
        obtain ⟨i, _, hi⟩ := List.mem_map.mp hmem
        exact numbered_ne_orig orig (1 + i) hi
      · refine List.Nodup.map ?_ (List.nodup_range _)
        intro i j hij
        have := numbered_inj hij
        omega
    have hsub :
        ∀ x ∈ orig :: (List.range (st.length + 2)).map (fun i => numbered orig (1 + i)),
          x ∈ st.map Prod.fst := by
      intro x hx
      rcases List.mem_cons.mp hx with rfl | hx
      · exact dictHas_iff.mp h0
      · obtain ⟨i, hi, rfl⟩ := List.mem_map.mp hx
        rw [List.mem_range] at hi
        exact dictHas_iff.mp (hall (1 + i) (by omega) (by omega))
    have hlen := (List.Nodup.subperm hnodup hsub).length_le
    simp at hlen
    omega
  · rw [if_neg h0]
    exact Bool.not_eq_true _ ▸ h0

/-! ## Dict and store updates -/

theorem dictSet_map_fst {α : Type} (d : List (Str × α)) (k : Str) (v : α) :
    (dictSet d k v).map Prod.fst = d.map Prod.fst ∨
    ((dictSet d k v).map Prod.fst = d.map Prod.fst ++ [k] ∧ k ∉ d.map Prod.fst) := by
  induction d with
  | nil => exact Or.inr ⟨rfl, by simp⟩
  | cons kv rest ih =>
    unfold dictSet
    by_cases hk : kv.1 == k
    · rw [if_pos hk]
      exact Or.inl rfl
    · rw [if_neg hk]
      rcases ih with h | ⟨h, hmem⟩
      · exact Or.inl (by rw [List.map_cons, List.map_cons, h])
      · refine Or.inr ⟨by rw [List.map_cons, List.map_cons, h, List.cons_append], ?_⟩
        rw [List.map_cons, List.mem_cons]
        rintro (h1 | h1)
        · rw [beq_iff_eq] at hk
          exact hk h1.symm
        · exact hmem h1

theorem mem_dictSet_imp {α : Type} {d : List (Str × α)} {k : Str} {v : α} {x : Str × α}
    (h : x ∈ dictSet d k v) : x ∈ d ∨ x = (k, v) := by
  induction d with
  | nil =>
    rw [show dictSet ([] : List (Str × α)) k v = [(k, v)] from rfl,
      List.mem_singleton] at h
    exact Or.inr h
  | cons kv rest ih =>
    unfold dictSet at h
    by_cases hk : kv.1 == k
    · rw [if_pos hk] at h
      rcases List.mem_cons.mp h with rfl | h1
      · rw [beq_iff_eq] at hk
        rw [hk]
        exact Or.inr rfl
      · exact Or.inl (List.mem_cons_of_mem _ h1)
    · rw [if_neg hk] at h
      rcases List.mem_cons.mp h with rfl | h1
      · exact Or.inl (List.mem_cons_self _ _)
      · rcases ih h1 with h2 | h2
        · exact Or.inl (List.mem_cons_of_mem _ h2)
        · exact Or.inr h2

theorem dictSet_append_fresh {α : Type} {d : List (Str × α)} {k : Str} {v : α}
    (h : k ∉ d.map Prod.fst) : dictSet d k v = d ++ [(k, v)] := by
  induction d with
  | nil => rfl
  | cons kv rest ih =>
    unfold dictSet
    rw [if_neg ?hne,
      ih fun hm => h (by rw [List.map_cons]; exact List.mem_cons_of_mem _ hm),
      List.cons_append]
    case hne =>
      rw [beq_iff_eq]
      intro h1
      apply h
      rw [List.map_cons, h1]
      exact List.mem_cons_self _ _

theorem storeSetKV_map_fst (st : Store) (sec k v : Str) :
    (storeSetKV st sec k v).map Prod.fst = st.map Prod.fst := by
  induction st with
  | nil => rfl
  | cons ns rest ih =>
    unfold storeSetKV
    by_cases hs : ns.1 == sec
    · rw [if_pos hs]
      simp
    · rw [if_neg hs, List.map_cons, List.map_cons, ih]

theorem mem_storeSetKV_imp {st : Store} {sec k v : Str} {x : Str × IniSection}
    (h : x ∈ storeSetKV st sec k v) :
    x ∈ st ∨ ∃ n s, x = (n, dictSet s k v) ∧ (n, s) ∈ st := by
  induction st with
  | nil => simp [storeSetKV] at h
  | cons ns rest ih =>
    unfold storeSetKV at h
    by_cases hs : ns.1 == sec
    · rw [if_pos hs] at h
      rcases List.mem_cons.mp h with rfl | h1
      · exact Or.inr ⟨ns.1, ns.2, rfl, List.mem_cons_self _ _⟩
      · exact Or.inl (List.mem_cons_of_mem _ h1)
    · rw [if_neg hs] at h
      rcases List.mem_cons.mp h with rfl | h1
      · exact Or.inl (List.mem_cons_self _ _)
      · rcases ih h1 with h2 | ⟨n, s, h2, h3⟩
        · exact Or.inl (List.mem_cons_of_mem _ h2)
        · exact Or.inr ⟨n, s, h2, List.mem_cons_of_mem _ h3⟩

theorem storeSetKV_last {pre : Store} {sec : Str} {s : IniSection}
    (h : sec ∉ pre.map Prod.fst) (k v : Str) :
    storeSetKV (pre ++ [(sec, s)]) sec k v = pre ++ [(sec, dictSet s k v)] := by
  induction pre with
  | nil =>
    rw [List.nil_append, List.nil_append,
      show storeSetKV [(sec, s)] sec k v
          = if (sec == sec) = true then (sec, dictSet s k v) :: []
            else (sec, s) :: storeSetKV [] sec k v from rfl,
      if_pos (beq_iff_eq.mpr rfl)]
  | cons p t ih =>
    rw [List.cons_append]
    unfold storeSetKV
    rw [if_neg ?hne, ih fun hm => h (by simp [hm]), List.cons_append]
    case hne =>
      rw [beq_iff_eq]
      intro h1
      exact h (by simp [h1])

/-! ## The parse invariant -/

theorem GoodSection_dictSet {s : IniSection} {k v : Str} (hs : GoodSection s)
    (hkv : goodKV k v) : GoodSection (dictSet s k v) := by
  constructor
  · rcases dictSet_map_fst s k v with h | ⟨h, hk⟩
    · rw [h]
      exact hs.1
    · rw [h]
      apply List.Nodup.append hs.1 (List.nodup_singleton k)
      intro a ha hb
      rw [List.mem_singleton] at hb
      rw [hb] at ha
      exact hk ha
  · intro kv hkv'
    rcases mem_dictSet_imp hkv' with h | h
    · exact hs.2 kv h
    · rw [h]
      exact hkv

theorem GoodStore_processLine {st : ParseState} (hg : GoodStore st.store) (raw : Str) :
    GoodStore (processLine st raw).store := by
  unfold processLine
  cases hcl : classifyLine raw with
  | skip => exact hg
  | other => exact hg
  | header name =>
    dsimp only
    by_cases hres : name ∈ reservedNames
    · rw [if_pos hres]
      exact hg
    · rw [if_neg hres]
      dsimp only
      have hfresh : dictHas st.store (freshName st.store name) = false :=
        freshName_not_has st.store name
      constructor
      · rw [List.map_append]
        apply List.Nodup.append hg.1 (List.nodup_singleton _)
        intro a ha hb
        simp only [List.map_cons, List.map_nil, List.mem_singleton] at hb
        rw [hb] at ha
        rw [← Bool.not_eq_true, dictHas_iff] at hfresh
        exact hfresh ha
      · intro ns hns
        rcases List.mem_append.mp hns with h | h
        · exact hg.2 ns h
        · rw [List.mem_singleton] at h
          rw [h]
          refine ⟨?_, by constructor <;> simp⟩
          dsimp only
          have hnm : pyStrip name = name := header_stripped_of_classify hcl
          unfold freshName
          by_cases h0 : dictHas st.store name = true
          · rw [h0, if_pos rfl]
            obtain ⟨j, _, hj⟩ := freshFrom_numbered st.store name (st.store.length + 1) 1
            rw [hj]
            exact ⟨numbered_stripped hnm j, numbered_not_reserved name j⟩
          · have h0' : dictHas st.store name = false := by
              rw [← Bool.not_eq_true]
              exact h0
            rw [h0', if_neg (by simp)]
            exact ⟨hnm, hres⟩
  | keyval k v =>
    dsimp only
    cases st.current with
    | none => exact hg
    | some sec =>
      dsimp only
      constructor
      · rw [storeSetKV_map_fst]
        exact hg.1
      · intro ns hns
        rcases mem_storeSetKV_imp hns with h | ⟨n, s, h2, h3⟩
        · exact hg.2 ns h
        · rw [h2]
          have hg2 := hg.2 (n, s) h3
          exact ⟨hg2.1, GoodSection_dictSet hg2.2 (goodKV_of_classify hcl)⟩

theorem GoodStore_foldl (ls : List Str) :
    ∀ st : ParseState, GoodStore st.store →
      GoodStore (ls.foldl processLine st).store := by
  induction ls with
  | nil => exact fun st h => h
  | cons l t ih =>
    intro st h
    rw [List.foldl_cons]
    exact ih _ (GoodStore_processLine h l)

theorem parseLines_good (ls : List Str) : GoodStore (parseLines ls).store :=
  GoodStore_foldl ls _ (by constructor <;> simp)

/-! ## Replaying a serialized store -/

theorem classifyLine_blank : classifyLine [] = .skip := by decide

theorem processLine_blank (st : ParseState) : processLine st [] = st := by
  unfold processLine
  rw [classifyLine_blank]

theorem foldl_keyval : ∀ (ls : List Str),
    (∀ l ∈ ls, ∃ k v, classifyLine l = .keyval k v) →
    ∀ (pre : Store) (sec : Str) (s : IniSection) (w : List ParseWarning),
      sec ∉ pre.map Prod.fst →
      List.foldl processLine ⟨pre ++ [(sec, s)], some sec, w⟩ ls
        = ⟨pre ++ [(sec, kvFold s ls)], some sec, w⟩ := by
  intro ls
  induction ls with
  | nil => intro _ pre sec s w _; rfl
  | cons l t ih =>
    intro hls pre sec s w hsec
    obtain ⟨k, v, hkv⟩ := hls l (List.mem_cons_self l t)
    rw [List.foldl_cons]
    have hpl : processLine ⟨pre ++ [(sec, s)], some sec, w⟩ l
        = ⟨pre ++ [(sec, dictSet s k v)], some sec, w⟩ := by
      unfold processLine
      rw [hkv]
      dsimp only
      rw [storeSetKV_last hsec]
    rw [hpl]
    have hkf : kvFold s (l :: t) = kvFold (dictSet s k v) t := by
      unfold kvFold
      rw [List.foldl_cons, hkv]
    rw [hkf]
    exact ih (fun l' hl' => hls l' (List.mem_cons_of_mem l hl')) pre sec _ w hsec

theorem kvFold_serialized : ∀ (todo done : IniSection),
    ((done ++ todo).map Prod.fst).Nodup → (∀ kv ∈ todo, goodKV kv.1 kv.2) →
    kvFold done (todo.map fun kv => kvLine kv.1 kv.2) = done ++ todo := by
  intro todo
  induction todo with
  | nil => intro done _ _; simp [kvFold]
  | cons kv t ih =>
    intro done hnd hgood
    have hg := hgood kv (List.mem_cons_self kv t)
    have hstep : kvFold done ((kv :: t).map fun x => kvLine x.1 x.2)
        = kvFold (dictSet done kv.1 kv.2) (t.map fun x => kvLine x.1 x.2) := by
      unfold kvFold
      rw [List.map_cons, List.foldl_cons,
        classifyLine_kvLine hg.1 hg.2.1 hg.2.2.1 hg.2.2.2.1 hg.2.2.2.2.1 hg.2.2.2.2.2]
    have hk1 : kv.1 ∉ done.map Prod.fst := by
      rw [List.map_append, List.map_cons, List.nodup_append] at hnd
      intro hmem
      exact hnd.2.2 hmem (List.mem_cons_self _ _)
    rw [hstep, dictSet_append_fresh hk1]
    have hnd' : (((done ++ [kv]) ++ t).map Prod.fst).Nodup := by
      rw [List.append_assoc, List.singleton_append]
      exact hnd
    have := ih (done ++ [kv]) hnd' fun x hx => hgood x (List.mem_cons_of_mem kv hx)
    rw [show done ++ [(kv.1, kv.2)] = done ++ [kv] by rw [Prod.mk.eta], this,
      List.append_assoc, List.singleton_append]

theorem replay_section {n : Str} {sec : IniSection} (hn : goodName n)
    (hsec : GoodSection sec) {acc : Store} (hacc : n ∉ acc.map Prod.fst)
    (cur : Option Str) (w : List ParseWarning) :
    List.foldl processLine ⟨acc, cur, w⟩ (serializeSection n sec)
      = ⟨acc ++ [(n, sec)], some n, w⟩ := by
  have hfree : dictHas acc n = false := by
    rw [← Bool.not_eq_true]
    intro hc
    exact hacc (dictHas_iff.mp hc)
  unfold serializeSection
  rw [List.foldl_cons]
  have hfn : freshName acc n = n := by
    unfold freshName
    rw [hfree, if_neg (by simp)]
  have hh : processLine ⟨acc, cur, w⟩ ('[' :: (n ++ [']'])) = ⟨acc ++ [(n, [])], some n, w⟩ := by
    unfold processLine
    rw [classifyLine_header hn.1]
    dsimp only
    rw [if_neg hn.2, hfn, if_neg (by simp)]
  rw [hh, List.foldl_append]
  have hall : ∀ l ∈ sec.map fun kv => kvLine kv.1 kv.2,
      ∃ k v, classifyLine l = .keyval k v := by
    intro l hl
    obtain ⟨kv, hkv, rfl⟩ := List.mem_map.mp hl
    have hg := hsec.2 kv hkv
    exact ⟨kv.1, kv.2,
      classifyLine_kvLine hg.1 hg.2.1 hg.2.2.1 hg.2.2.2.1 hg.2.2.2.2.1 hg.2.2.2.2.2⟩
  rw [foldl_keyval _ hall acc n [] w hacc,
    kvFold_serialized sec [] (by simpa using hsec.1) hsec.2,
    List.foldl_cons, processLine_blank, List.foldl_nil, List.nil_append]

theorem replay_store : ∀ (st acc : Store) (cur : Option Str) (w : List ParseWarning),
    GoodStore (acc ++ st) →
    List.foldl processLine ⟨acc, cur, w⟩ (serializeStore st)
      = ⟨acc ++ st, lastCur cur st, w⟩ := by
  intro st
  induction st with
  | nil => intro acc cur w _; simp [serializeStore, lastCur]
  | cons ns rest ih =>
    intro acc cur w hg
    have hser : serializeStore (ns :: rest)
        = serializeSection ns.1 ns.2 ++ serializeStore rest := by
      unfold serializeStore
      rw [List.map_cons, List.flatten_cons]
    have hns := hg.2 ns (by simp)
    have hacc : ns.1 ∉ acc.map Prod.fst := by
      have hnd := hg.1
      rw [List.map_append, List.nodup_append] at hnd
      intro hm
      exact hnd.2.2 hm (by rw [List.map_cons]; exact List.mem_cons_self _ _)
    rw [hser, List.foldl_append, replay_section hns.1 hns.2 hacc cur w]
    have hg' : GoodStore ((acc ++ [ns]) ++ rest) := by
      rw [List.append_assoc, List.singleton_append]
      exact hg
    have := ih (acc ++ [ns]) (some ns.1) w hg'
    rw [List.append_assoc, List.singleton_append] at this
    rw [show acc ++ [(ns.1, ns.2)] = acc ++ [ns] by rw [Prod.mk.eta], this]
    rfl

/-! ## Grouped DSN listing: fold/filter correspondence -/

theorem dictGetD_cons {α : Type} (kv : Str × α) (rest : List (Str × α)) (k : Str)
    (dflt : α) :
    dictGetD (kv :: rest) k dflt = if kv.1 = k then kv.2 else dictGetD rest k dflt := by
  unfold dictGetD dictGet?
  by_cases h : kv.1 = k
  · have hb : (kv.1 == k) = true := beq_iff_eq.mpr h
    simp only [List.find?_cons, hb, if_pos h]
    rfl
  · have hb : (kv.1 == k) = false := by simpa using h
    simp only [List.find?_cons, hb, if_neg h]

theorem groupAdd_map_fst (g : List (Str × List Str)) (d : Str) (x : Str) :
    (groupAdd g d x).map Prod.fst =
      if d ∈ g.map Prod.fst then g.map Prod.fst else g.map Prod.fst ++ [d] := by
  induction g with
  | nil => simp [groupAdd]
  | cons e rest ih =>
    unfold groupAdd
    by_cases he : e.1 == d
    · have he' : e.1 = d := beq_iff_eq.mp he
      rw [if_pos he, List.map_cons, List.map_cons,
        if_pos (by rw [List.mem_cons]; exact Or.inl he'.symm)]
    · have he' : ¬ e.1 = d := by simpa using he
      have hne : d ≠ e.1 := fun hc => he' hc.symm
      rw [if_neg he, List.map_cons, List.map_cons, ih]
      by_cases hd : d ∈ rest.map Prod.fst
      · rw [if_pos hd, if_pos (List.mem_cons_of_mem _ hd)]
      · rw [if_neg hd, if_neg ?hno, List.cons_append]
        case hno =>
          rw [List.mem_cons]
          rintro (h | h)
          · exact hne h
          · exact hd h

theorem dictGetD_groupAdd (g : List (Str × List Str)) (d x d' : Str) :
    dictGetD (groupAdd g d x) d' [] =
      if d' = d then dictGetD g d' [] ++ [x] else dictGetD g d' [] := by
  induction g with
  | nil =>
    unfold groupAdd
    rw [dictGetD_cons]
    dsimp only
    by_cases h : d' = d
    · rw [if_pos h.symm, if_pos h]
      rfl
    · rw [if_neg fun hc => h hc.symm, if_neg h]
  | cons e rest ih =>
    unfold groupAdd
    by_cases he : e.1 == d
    · have he' : e.1 = d := beq_iff_eq.mp he
      rw [if_pos he, dictGetD_cons, dictGetD_cons]
      dsimp only
      by_cases hd : e.1 = d'
      · rw [if_pos hd, if_pos (hd.symm.trans he'), if_pos hd]
      · rw [if_neg hd, if_neg fun hc => hd (he'.trans hc.symm), if_neg hd]
    · have he' : ¬ e.1 = d := by simpa using he
      rw [if_neg he, dictGetD_cons, dictGetD_cons]
      by_cases hd : e.1 = d'
      · rw [if_pos hd, if_neg fun hc => he' (hd.trans hc), if_pos hd]
      · rw [if_neg hd, ih, if_neg hd]

theorem buildGroups_key_eq : ∀ (st : Store) (g : List (Str × List Str)),
    (buildGroups g st).map Prod.fst
      = st.foldl (fun ks ns => if driverOf ns.2 ∈ ks then ks else ks ++ [driverOf ns.2])
          (g.map Prod.fst) := by
  intro st
  induction st with
  | nil => intro g; rfl
  | cons ns rest ih =>
    intro g
    unfold buildGroups
    rw [ih, List.foldl_cons, groupAdd_map_fst]

theorem buildGroups_get : ∀ (st : Store) (g : List (Str × List Str)) (d : Str),
    dictGetD (buildGroups g st) d []
      = dictGetD g d [] ++ (st.filter (fun ns => driverOf ns.2 == d)).map Prod.fst := by
  intro st
  induction st with
  | nil => intro g d; simp [buildGroups]
  | cons ns rest ih =>
    intro g d
    unfold buildGroups
    rw [ih, dictGetD_groupAdd, List.filter_cons]
    by_cases hd : driverOf ns.2 = d
    · rw [if_pos hd.symm, if_pos (beq_iff_eq.mpr hd), List.map_cons, List.append_assoc,
        List.singleton_append]
    · have h1 : ¬(d = driverOf ns.2) := fun hc => hd hc.symm
      have h2 : ¬((driverOf ns.2 == d) = true) := by simpa using hd
      rw [if_neg h1, if_neg h2]

theorem list_dsns_grouped_eq_spec (store : Store) :
    list_dsns_grouped store = specListDsns store := by
  unfold list_dsns_grouped specListDsns
  dsimp only
  have hkeys : (buildGroups [] store).map Prod.fst
      = store.foldl
          (fun ks ns => if driverOf ns.2 ∈ ks then ks else ks ++ [driverOf ns.2]) [] := by
    have h := buildGroups_key_eq store []
    rw [List.map_nil] at h
    exact h
  have hfun : (fun d => sortStrs (dictGetD (buildGroups [] store) d []))
      = fun d => sortStrs ((store.filter (fun ns => driverOf ns.2 == d)).map Prod.fst) := by
    funext d
    rw [buildGroups_get store [] d]
    rfl
  rw [hkeys, hfun]

/-! ## Claim theorems -/

/-- Claim C9: for every input text — including one that already contains a
literal disambiguated name such as `[A__1]` — the parsed store has
pairwise-distinct section names: the rename counter advances until an unused
name is found, so no rename collides with an existing section (parsing
`[A]`, `[A__1]`, `[A]` names the third section `A__2`). -/
theorem C9_parse_names_nodup :
    (∀ ls : List Str, ((parseLines ls).store.map Prod.fst).Nodup) ∧
    (parseLines ["[A]".toList, "[A__1]".toList, "[A]".toList]).store.map Prod.fst
      = ["A".toList, "A__1".toList, "A__2".toList] :=
  ⟨fun ls => (parseLines_good ls).1, by decide⟩

/-- Claim C3: for every store produced by `Parse`, serializing it and parsing
the result yields a store with identical section names, key sets and values,
with the order of sections preserved (the stores are equal as ordered lists),
and the re-parse reports no warnings. -/
theorem C3_roundtrip (ls : List Str) :
    (parseLines (serializeStore (parseLines ls).store)).store = (parseLines ls).store ∧
    (parseLines (serializeStore (parseLines ls).store)).warnings = [] := by
  have hg : GoodStore ([] ++ (parseLines ls).store) := by
    rw [List.nil_append]
    exact parseLines_good ls
  have h := replay_store (parseLines ls).store [] none [] hg
  rw [List.nil_append] at h
  have h2 : parseLines (serializeStore (parseLines ls).store)
      = ⟨(parseLines ls).store, lastCur none (parseLines ls).store, []⟩ := h
  rw [h2]
  exact ⟨rfl, rfl⟩

/-- Claim C1: parsing text in which the header `[n]` occurs twice never
merges or overwrites the sections: the result has the two sections `n` and
`n__1` in that order, each carrying exactly the key/value data of its own
body, and exactly one warning naming both the duplicate and its new name. -/
theorem C1_duplicate_section_renamed (n : Str) (kvs1 kvs2 : List Str)
    (hn : pyStrip n = n) (hres : n ∉ reservedNames)
    (h1 : ∀ l ∈ kvs1, ∃ k v, classifyLine l = .keyval k v)
    (h2 : ∀ l ∈ kvs2, ∃ k v, classifyLine l = .keyval k v) :
    parseLines (('[' :: (n ++ [']'])) :: (kvs1 ++ ('[' :: (n ++ [']'])) :: kvs2))
      = ⟨[(n, kvFold [] kvs1), (numbered n 1, kvFold [] kvs2)],
         some (numbered n 1),
         [.duplicateSection n (numbered n 1)]⟩ := by
  unfold parseLines
  rw [List.foldl_cons]
  have hh1 : processLine ⟨[], none, []⟩ ('[' :: (n ++ [']'])) = ⟨[(n, [])], some n, []⟩ := by
    unfold processLine
    rw [classifyLine_header hn]
    dsimp only
    have hfn : freshName [] n = n := by
      unfold freshName
      rw [show dictHas ([] : Store) n = false from rfl, if_neg (by simp)]
    rw [if_neg hres, hfn, if_neg (by simp)]
    rfl
  rw [hh1, List.foldl_append]
  have hk1 := foldl_keyval kvs1 h1 [] n [] [] (by simp)
  simp only [List.nil_append] at hk1
  rw [hk1, List.foldl_cons]
  have hfr : freshName [(n, kvFold [] kvs1)] n = numbered n 1 := by
    unfold freshName
    rw [show dictHas [(n, kvFold [] kvs1)] n = true by simp [dictHas], if_pos rfl]
    have hno : dictHas [(n, kvFold [] kvs1)] (numbered n 1) = false := by
      simp only [dictHas, List.any_cons, List.any_nil, Bool.or_false]
      rw [Bool.eq_false_iff]
      intro hc
      rw [beq_iff_eq] at hc
      exact numbered_ne_orig n 1 hc.symm
    unfold freshFrom
    dsimp only
    rw [hno, if_neg (by simp)]
  have hh2 : processLine ⟨[(n, kvFold [] kvs1)], some n, []⟩ ('[' :: (n ++ [']']))
      = ⟨[(n, kvFold [] kvs1), (numbered n 1, [])], some (numbered n 1),
         [.duplicateSection n (numbered n 1)]⟩ := by
    unfold processLine
    rw [classifyLine_header hn]
    dsimp only
    rw [if_neg hres, hfr, if_pos (numbered_ne_orig n 1)]
    rfl
  rw [hh2]
  have hpre : (numbered n 1) ∉ ([(n, kvFold [] kvs1)].map Prod.fst) := by
    rw [List.map_cons, List.map_nil, List.mem_singleton]
    exact numbered_ne_orig n 1
  exact foldl_keyval kvs2 h2 [(n, kvFold [] kvs1)] (numbered n 1) []
    [.duplicateSection n (numbered n 1)] hpre

/-- Witness for C1 at a concrete input: `[A]`, `x=1`, `[A]`, `y=2` parses to
sections `A` (with `x = 1`) and `A__1` (with `y = 2`), plus the one
duplicate warning. -/
theorem C1_duplicate_section_renamed_witness :
    parseLines ["[A]".toList, "x=1".toList, "[A]".toList, "y=2".toList]
      = ⟨[("A".toList, [("x".toList, "1".toList)]),
          ("A__1".toList, [("y".toList, "2".toList)])],
         some ("A__1".toList),
         [.duplicateSection "A".toList "A__1".toList]⟩ := by
  have h := C1_duplicate_section_renamed "A".toList ["x=1".toList] ["y=2".toList]
    (by decide) (by decide)
    (by
      intro l hl
      rw [List.mem_singleton] at hl
      rw [hl]
      exact ⟨"x".toList, "1".toList, by decide⟩)
    (by
      intro l hl
      rw [List.mem_singleton] at hl
      rw [hl]
      exact ⟨"y".toList, "2".toList, by decide⟩)
  exact h.trans (by decide)

/-- Claim C4 counterexample: a file that exists but cannot be opened does not
make `read_ini_file` fail with an `IOError` — the blanket exception handler
returns a normal `.ok` result (an empty store plus a read-error warning), so
the claimed "fails with IOError iff the file exists but cannot be opened" is
false at this input. -/
theorem C4_counterexample :
    (¬ ∃ e, read_ini_file "odbc.ini".toList
        (FileInput.openFail "permission denied".toList) = Except.error e) ∧
    read_ini_file "odbc.ini".toList (FileInput.openFail "permission denied".toList)
      = .ok ⟨[], none,
          [.readError "odbc.ini".toList "permission denied".toList]⟩ := by
  constructor
  · rintro ⟨e, he⟩
    simp [read_ini_file] at he
  · rfl

/-- Claim C4 (amended): `read_ini_file` on an absent path returns an empty
store with zero warnings and no error; it never fails for any file state —
a file that exists but cannot be opened yields a normal result too, namely an
empty store plus one read-error warning, rather than raising `IOError`. -/
theorem C4_amended (path : Str) (f : FileInput) :
    read_ini_file path FileInput.absent = .ok ⟨[], none, []⟩ ∧
    (∃ st, read_ini_file path f = .ok st) ∧
    ∀ msg, read_ini_file path (FileInput.openFail msg)
      = .ok ⟨[], none, [.readError path msg]⟩ := by
  refine ⟨rfl, ?_, fun msg => rfl⟩
  cases f <;> exact ⟨_, rfl⟩

/-- Claim C5 counterexample: parsing the single orphan line `a=b` (a `=` line
while no section is open) yields an empty store and — contrary to the claim
that a warning is accumulated for it — an empty warning list. -/
theorem C5_counterexample :
    (parseLines ["a=b".toList]).warnings = [] ∧
    (parseLines ["a=b".toList]).store = [] :=
  ⟨by decide, by decide⟩

/-- Claim C5 (amended): a line classified as `key=value` while no section is
open is silently discarded — it is never stored in any section, no warning is
accumulated, and parsing continues exactly as if the line were absent; a
malformed line never aborts the parse. -/
theorem C5_amended (l : Str) (rest : List Str) (k v : Str)
    (h : classifyLine l = .keyval k v) :
    parseLines (l :: rest) = parseLines rest := by
  unfold parseLines
  rw [List.foldl_cons]
  have hstep : processLine ⟨[], none, []⟩ l = ⟨[], none, []⟩ := by
    unfold processLine
    rw [h]
  rw [hstep]

/-- Witness for C5 (amended) at a concrete input: the orphan `a=b` before
`[S]` leaves the parse identical to parsing `[S]` alone. -/
theorem C5_amended_witness :
    parseLines ["a=b".toList, "[S]".toList] = parseLines ["[S]".toList] :=
  C5_amended "a=b".toList ["[S]".toList] ['a'] ['b'] (by decide)

/-- Claim C2: with no specific manager selected and both backends available,
`test_dsn` attempts unixODBC first and then iODBC — the iODBC attempt is made
whatever the unixODBC outcome was — and the overall success is the logical OR
of the two per-backend outcomes (never the AND). -/
theorem C2_all_backends_or (dsnStore : Store) (instStore : Option Store) (dsn : Str)
    (u p : Option Str) (connectUnix connectIodbc : Str → Bool) :
    test_dsn dsnStore instStore none true true dsn u p connectUnix connectIodbc
      = ([(Backend.unixodbc,
            (test_dsn_unixodbc dsnStore instStore dsn u p connectUnix).success),
          (Backend.iodbc,
            (test_dsn_iodbc dsnStore instStore dsn u p connectIodbc).success)],
         (test_dsn_unixodbc dsnStore instStore dsn u p connectUnix).success
           || (test_dsn_iodbc dsnStore instStore dsn u p connectIodbc).success) := by
  unfold test_dsn
  simp [Bool.or_comm]

/-- Claim C6: `list_dsns_grouped` returns exactly the spec ordering — the
distinct driver names (with missing driver keys falling into the sentinel
`unknown` group) sorted lexicographically, and within each group the DSN
names sorted lexicographically, concatenated group by group; being a pure
function of the store, the order is deterministic for the same input.  On
{Zeta ↦ driver B, Alpha ↦ driver A, Beta ↦ driver A} it returns
[Alpha, Beta, Zeta]. -/
theorem C6_grouped_listing :
    (∀ store : Store, list_dsns_grouped store = specListDsns store) ∧
    list_dsns_grouped
        [("Zeta".toList, [("Driver".toList, "B".toList)]),
         ("Alpha".toList, [("Driver".toList, "A".toList)]),
         ("Beta".toList, [("Driver".toList, "A".toList)])]
      = ["Alpha".toList, "Beta".toList, "Zeta".toList] :=
  ⟨list_dsns_grouped_eq_spec, by decide⟩

/-- Claim C7 counterexample: on the section whose only key is the upper-case
`DRIVER` with value `/usr/lib/foo.so`, the case-insensitive well-known-key
lookup (`driverOf`, used by the grouped listing) yields a value containing a
path separator, yet `detectPathMisconfiguration` returns false — so the
claimed "true iff the case-insensitively looked-up driver value contains a
separator" fails at this input. -/
theorem C7_counterexample :
    ¬ (detectPathMisconfiguration [("DRIVER".toList, "/usr/lib/foo.so".toList)]
        = ((driverOf [("DRIVER".toList, "/usr/lib/foo.so".toList)]).contains '/'
           || (driverOf [("DRIVER".toList, "/usr/lib/foo.so".toList)]).contains '\\')) := by
  decide

/-- Claim C7 (amended): `detectPathMisconfiguration` returns true iff the
value stored under the exact-case key `Driver` (first such entry; an absent
key counts as the empty string) contains `/` or `\` — keys differing only in
case are ignored by this check. -/
theorem C7_amended (sec : IniSection) :
    detectPathMisconfiguration sec = true ↔
      ∃ v, dictGet? sec "Driver".toList = some v ∧ ('/' ∈ v ∨ '\\' ∈ v) := by
  unfold detectPathMisconfiguration dictGetD
  cases hg : dictGet? sec "Driver".toList with
  | none => simp
  | some v => simp [List.contains, List.elem_iff]

/-- Claim C8: whenever a path misconfiguration is detected in the DSN's
section and a corrected driver name is resolved from the driver store, the
correction is advisory only — for both backend test functions the DSN store
is unchanged after the call and the connection string handed to the external
connector is exactly the one built from the DSN name as configured. -/
theorem C8_advisory_only (dsnStore instStore : Store) (dsn : Str) (u p : Option Str)
    (connectUnix connectIodbc : Str → Bool) (sec : IniSection) (correct : Str)
    (hfind : dictGet? dsnStore dsn = some sec)
    (hdet : detectPathMisconfiguration sec = true)
    (hres : resolveCorrectName instStore (dictGetD sec "Driver".toList [])
      = some correct) :
    ((test_dsn_unixodbc dsnStore (some instStore) dsn u p connectUnix).connStr
        = mkConnStr dsn u p ∧
      (test_dsn_unixodbc dsnStore (some instStore) dsn u p connectUnix).storeAfter
        = dsnStore) ∧
    ((test_dsn_iodbc dsnStore (some instStore) dsn u p connectIodbc).connStr
        = mkConnStr dsn u p ∧
      (test_dsn_iodbc dsnStore (some instStore) dsn u p connectIodbc).storeAfter
        = dsnStore) := by
  unfold detectPathMisconfiguration at hdet
  unfold test_dsn_unixodbc test_dsn_iodbc
  rw [hfind]
  dsimp only
  rw [if_pos hdet, hres]
  exact ⟨⟨rfl, rfl⟩, ⟨rfl, rfl⟩⟩

/-- Witness for C8 at a concrete input: DSN `MyDsn` stores the library path
`/usr/lib/foo.so` in its `Driver` key; the driver store maps `FooDriver` to
that path; the connection string used is still `DSN=MyDsn` and the DSN store
is unchanged, for both backends. -/
theorem C8_advisory_only_witness :
    ((test_dsn_unixodbc
        [("MyDsn".toList, [("Driver".toList, "/usr/lib/foo.so".toList)])]
        (some [("FooDriver".toList, [("Driver".toList, "/usr/lib/foo.so".toList)])])
        "MyDsn".toList none none (fun _ => false)).connStr
      = mkConnStr "MyDsn".toList none none ∧
     (test_dsn_unixodbc
        [("MyDsn".toList, [("Driver".toList, "/usr/lib/foo.so".toList)])]
        (some [("FooDriver".toList, [("Driver".toList, "/usr/lib/foo.so".toList)])])
        "MyDsn".toList none none (fun _ => false)).storeAfter
      = [("MyDsn".toList, [("Driver".toList, "/usr/lib/foo.so".toList)])]) ∧
    ((test_dsn_iodbc
        [("MyDsn".toList, [("Driver".toList, "/usr/lib/foo.so".toList)])]
        (some [("FooDriver".toList, [("Driver".toList, "/usr/lib/foo.so".toList)])])
        "MyDsn".toList none none (fun _ => false)).connStr
      = mkConnStr "MyDsn".toList none none ∧
     (test_dsn_iodbc
        [("MyDsn".toList, [("Driver".toList, "/usr/lib/foo.so".toList)])]
        (some [("FooDriver".toList, [("Driver".toList, "/usr/lib/foo.so".toList)])])
        "MyDsn".toList none none (fun _ => false)).storeAfter
      = [("MyDsn".toList, [("Driver".toList, "/usr/lib/foo.so".toList)])]) :=
  C8_advisory_only
    [("MyDsn".toList, [("Driver".toList, "/usr/lib/foo.so".toList)])]
    [("FooDriver".toList, [("Driver".toList, "/usr/lib/foo.so".toList)])]
    "MyDsn".toList none none (fun _ => false) (fun _ => false)
    [("Driver".toList, "/usr/lib/foo.so".toList)] "FooDriver".toList
    (by decide) (by decide) (by decide)

/-- Claim C10: in the details display, every key equal to `PWD` or `PASSWORD`
under uppercase comparison is printed as the literal mask `********` in place
of its value, every other key is printed with its actual value, and the
output is identical for any two sections that agree on keys and on
non-password values — so the stored password value never influences (and is
never revealed by) the details output. -/
theorem C10_password_masked (sec sec' : IniSection)
    (h : List.Forall₂
      (fun a b => a.1 = b.1 ∧ (isPwdKey a.1 = false → a.2 = b.2)) sec sec') :
    show_dsn_details_lines sec = show_dsn_details_lines sec' ∧
    (∀ kv ∈ sec, isPwdKey kv.1 = true →
      detailLine kv.1 kv.2 = kv.1 ++ ' ' :: '=' :: ' ' :: "********".toList) ∧
    (∀ kv ∈ sec, isPwdKey kv.1 = false →
      detailLine kv.1 kv.2 = kv.1 ++ ' ' :: '=' :: ' ' :: kv.2) := by
  refine ⟨?_, ?_, ?_⟩
  · induction h with
    | nil => rfl
    | @cons a b l1 l2 hab hrest ih =>
      unfold show_dsn_details_lines
      rw [List.map_cons, List.map_cons]
      have hline : detailLine a.1 a.2 = detailLine b.1 b.2 := by
        unfold detailLine
        rw [← hab.1]
        by_cases hp : isPwdKey a.1 = true
        · rw [if_pos hp, if_pos hp]
        · have hp' : isPwdKey a.1 = false := by simpa using hp
          rw [if_neg (by simp [hp']), if_neg (by simp [hp']), hab.2 hp']
      rw [hline]
      unfold show_dsn_details_lines at ih
      rw [ih]
  · intro kv _ hp
    unfold detailLine
    rw [if_pos hp]
  · intro kv _ hp
    unfold detailLine
    rw [if_neg (by simp [hp])]

/-- Witness for C10 at a concrete input: two sections differing only in the
`PWD` value produce identical detail output (both mask the password). -/
theorem C10_password_masked_witness :
    show_dsn_details_lines
        [("UID".toList, "dba".toList), ("PWD".toList, "secretA".toList)]
      = show_dsn_details_lines
        [("UID".toList, "dba".toList), ("PWD".toList, "secretB".toList)] := by
  have h : List.Forall₂
      (fun (a b : Str × Str) => a.1 = b.1 ∧ (isPwdKey a.1 = false → a.2 = b.2))
      [("UID".toList, "dba".toList), ("PWD".toList, "secretA".toList)]
      [("UID".toList, "dba".toList), ("PWD".toList, "secretB".toList)] := by
    refine List.Forall₂.cons ⟨rfl, fun _ => rfl⟩ ?_
    refine List.Forall₂.cons ⟨rfl, fun hx => absurd hx (by decide)⟩ List.Forall₂.nil
  exact (C10_password_masked _ _ h).1

end OdbcAdmin
